import Mathlib

/-
Verification of the number-theoretic primitives of the rcrypt repository
(file src/num_ext/mod.rs): modular exponentiation, Miller-Rabin primality
testing (sequential and 8-worker threaded variants), prime search, and the
extended-gcd entry point.  Loops of the Rust source are embedded as
fuel-indexed structural recursions; the random witnesses drawn by
thread_rng are made explicit as input streams.
-/

namespace RCrypt

/-- Embedding of the while loop of mod_exp.  State: accumulator r, base
accumulator b, remaining exponent e, modulus m.  Each iteration multiplies
r by b modulo m when the low bit of e is set, squares b modulo m and
halves e, exactly as in the source.  The fuel only bounds the iteration
count; mod_exp supplies fuel e, which always suffices since e halves each
step. -/
def modExpGo : ℕ → ℕ → ℕ → ℕ → ℕ → ℕ
  | 0, r, _, _, _ => r
  | fuel + 1, r, b, e, m =>
    if e = 0 then r
    else modExpGo fuel (if e % 2 = 1 then r * b % m else r) (b * b % m) (e / 2) m

/-- Embedding of fn mod_exp: binary exponentiation with accumulator
starting at 1.  For exponent 0 the source loop never runs and the
unreduced accumulator 1 is returned. -/
def mod_exp (b e m : ℕ) : ℕ := modExpGo e 1 b e m

/-- Embedding of the decomposition loop of fn miller_rabin:
while d is even, halve d and increment s.  The source loop does not
terminate for d = 0 (the guard checks evenness only); the embedding adds
d different from 0 to the guard and so returns (0, s) there, outside the
domain of use, where d starts at n - 1 with n greater than 3. -/
def decomposeGo : ℕ → ℕ → ℕ → ℕ × ℕ
  | 0, d, s => (d, s)
  | fuel + 1, d, s =>
    if d ≠ 0 ∧ d % 2 = 0 then decomposeGo fuel (d / 2) (s + 1) else (d, s)

/-- The pair (d, s) computed by fn miller_rabin from m = n - 1 before any
round runs. -/
def decompose (m : ℕ) : ℕ × ℕ := decomposeGo m m 0

/-- Embedding of the inner loop of fn miller_rabin_thread.  The Rust loop
keeps a counter i starting at 0: it squares x via mod_exp, returns false
when x = 1 or i = s - 1, passes the round when x = n - 1, else increments
i.  Here the fuel argument is s - i, so the check i = s - 1 becomes
f = 0 under the pattern f + 1; the initial call uses fuel s. -/
def squareLoop (n : ℕ) : ℕ → ℕ → Bool
  | _, 0 => false
  | x, f + 1 =>
    if mod_exp x 2 n = 1 ∨ f = 0 then false
    else if mod_exp x 2 n = n - 1 then true
    else squareLoop n (mod_exp x 2 n) f

/-- One round of fn miller_rabin_thread with explicit witness a:
x = mod_exp a d n; pass when x = 1 or x = n - 1, else run the squaring
loop. -/
def mrRound (n d s a : ℕ) : Bool :=
  if mod_exp a d n = 1 ∨ mod_exp a d n = n - 1 then true
  else squareLoop n (mod_exp a d n) s

/-- The k-round loop of fn miller_rabin_thread over an explicit list of
witnesses (one list element per random draw of the source); returns false
as soon as one round proves compositeness. -/
def mrRoundsList (n d s : ℕ) : List ℕ → Bool
  | [] => true
  | a :: rest => if mrRound n d s a then mrRoundsList n d s rest else false

/-- Embedding of fn miller_rabin_thread: k rounds drawing witness w j at
round j. -/
def miller_rabin_thread (n d s : ℕ) (w : ℕ → ℕ) (k : ℕ) : Bool :=
  mrRoundsList n d s ((List.range k).map w)

/-- The per-worker round counts of the threaded branch of fn miller_rabin:
the spawn loop runs 8 times and passes k / 8 (integer division) to each
worker. -/
def concRoundCounts (k : ℕ) : List ℕ := List.replicate 8 (k / 8)

/-- Embedding of fn miller_rabin with the per-worker random streams W made
explicit.  It first computes (d, s) from n - 1.  In the threaded branch 8
workers each run k / 8 rounds against the shared (n, d, s) and the
orchestrator is the conjunction of the 8 results; in the sequential
branch a single call runs all k rounds. -/
def miller_rabin (n k : ℕ) (W : Fin 8 → ℕ → ℕ) (thread : Bool) : Bool :=
  if thread then
    (List.ofFn fun i : Fin 8 =>
      miller_rabin_thread n (decompose (n - 1)).1 (decompose (n - 1)).2 (W i) (k / 8)).all
      (fun b => b)
  else
    miller_rabin_thread n (decompose (n - 1)).1 (decompose (n - 1)).2 (W 0) k

/-- The special-case guards at the head of fn is_prime_helper, as a
partial verdict: some b when the guards decide n without any Miller-Rabin
round, none when control falls through to fn miller_rabin. -/
def isPrimeSpecial (n : ℕ) : Option Bool :=
  if n = 3 ∨ n = 2 then some true
  else if n < 2 ∨ n % 2 = 0 then some false
  else none

/-- Embedding of fn is_prime_helper: the special cases decide small and
even n; otherwise fn miller_rabin runs with k = 100 rounds. -/
def is_prime_helper (n : ℕ) (W : Fin 8 → ℕ → ℕ) (thread : Bool) : Bool :=
  match isPrimeSpecial n with
  | some b => b
  | none => miller_rabin n 100 W thread

/-- The first candidate fn next_prime_helper tests: n + 1 when n is even,
n + 2 when n is odd. -/
def firstCand (n : ℕ) : ℕ := if n % 2 = 0 then n + 1 else n + 2

/-- Embedding of the search loop of fn next_prime_helper: test the current
candidate with the primality predicate isP (fn is_prime_helper under some
random stream), and on failure advance by 2.  The source loop is
unbounded, so the embedding is fuel-indexed and returns none when the
fuel runs out. -/
def nextPrimeGo (isP : ℕ → Bool) : ℕ → ℕ → Option ℕ
  | 0, _ => none
  | fuel + 1, cand => if isP cand then some cand else nextPrimeGo isP fuel (cand + 2)

/-- Embedding of fn next_prime_helper: normalise the start to the first
odd candidate above n, then search. -/
def next_prime_helper (isP : ℕ → Bool) (fuel n : ℕ) : Option ℕ :=
  nextPrimeGo isP fuel (firstCand n)

/-- Embedding of fn gcdext as implemented: it ignores both arguments and
returns the zero triple. -/
def gcdext (a b : ℕ) : ℕ × ℕ × ℕ := (0, 0, 0)

/-- Modelled from the spec: the squaring phase of one round as worded in
section 4.3 — repeat up to s - 1 times x = modExp(x, 2, n), where the
modExp contract is squaring modulo n, passing as soon as x = n - 1,
reporting composite when the repetitions are exhausted. -/
def specSquare (n : ℕ) : ℕ → ℕ → Bool
  | _, 0 => false
  | x, f + 1 =>
    if x * x % n = n - 1 then true else specSquare n (x * x % n) f

/-- Modelled from the spec: one full round as worded in section 4.3 —
x = modExp(a, d, n), meaning a ^ d mod n; pass when x = 1 or x = n - 1,
else run up to s - 1 squarings. -/
def specRound (n d s a : ℕ) : Bool :=
  if a ^ d % n = 1 ∨ a ^ d % n = n - 1 then true
  else specSquare n (a ^ d % n) (s - 1)

/-- Value of the mod_exp loop: with enough fuel and a positive modulus the
accumulator r becomes r * b ^ e mod m, except that exponent 0 returns r
unreduced, exactly as the source loop does. -/
lemma modExpGo_eq (m : ℕ) (hm : 1 ≤ m) :
    ∀ fuel e r b, e ≤ fuel →
      modExpGo fuel r b e m = if e = 0 then r else r * b ^ e % m := by
  intro fuel
  induction fuel with
  | zero =>
    intro e r b he
    have h0 : e = 0 := by omega
    subst h0
    simp [modExpGo]
  | succ f ih =>
    intro e r b he
    by_cases h0 : e = 0
    · subst h0; simp [modExpGo]
    · rw [if_neg h0, modExpGo, if_neg h0, ih (e / 2) _ _ (by omega)]
      by_cases h1 : e / 2 = 0
      · have he1 : e = 1 := by omega
        subst he1
        simp
      · rw [if_neg h1]
        have hme : 2 * (e / 2) + e % 2 = e := Nat.div_add_mod e 2
        by_cases hp : e % 2 = 1
        · rw [if_pos hp]
          have c3 : (r * b % m) * ((b * b % m) ^ (e / 2)) ≡
              (r * b) * ((b * b) ^ (e / 2)) [MOD m] :=
            (Nat.mod_modEq (r * b) m).mul ((Nat.mod_modEq (b * b) m).pow (e / 2))
          have c4 : (r * b) * ((b * b) ^ (e / 2)) = r * b ^ e := by
            have hbb : b * b = b ^ 2 := (sq b).symm
            rw [hbb, ← pow_mul]
            calc r * b * b ^ (2 * (e / 2))
                = r * (b ^ (2 * (e / 2)) * b) := by ring
              _ = r * b ^ (2 * (e / 2) + 1) := by rw [pow_succ]
              _ = r * b ^ e := by rw [show 2 * (e / 2) + 1 = e by omega]
          have := c3
          rw [c4] at this
          exact this
        · rw [if_neg hp]
          have c3 : r * ((b * b % m) ^ (e / 2)) ≡
              r * ((b * b) ^ (e / 2)) [MOD m] :=
            (Nat.ModEq.refl r).mul ((Nat.mod_modEq (b * b) m).pow (e / 2))
          have c4 : r * ((b * b) ^ (e / 2)) = r * b ^ e := by
            have hbb : b * b = b ^ 2 := (sq b).symm
            rw [hbb, ← pow_mul, show 2 * (e / 2) = e by omega]
          have := c3
          rw [c4] at this
          exact this

/-- For a positive modulus and a positive exponent, mod_exp computes the
mathematical b ^ e mod m. -/
lemma mod_exp_correct (b e m : ℕ) (hm : 1 ≤ m) (he : 1 ≤ e) :
    mod_exp b e m = b ^ e % m := by
  unfold mod_exp
  rw [modExpGo_eq m hm e e 1 b (le_refl e), if_neg (by omega), one_mul]

/-- C1: the claim that the threaded tester always returns the same verdict
as the sequential one is false.  For candidate n = 25 (composite) and
k = 9 rounds, the threaded path gives each of its 8 workers only
9 / 8 = 1 round; with every worker drawing the strong liar 7 the threaded
verdict is true, while the sequential path runs all 9 rounds and its
ninth witness 2 proves 25 composite, so the sequential verdict is false.
All witnesses lie in the sampling range [2, n - 2]. -/
theorem miller_rabin_threaded_disagrees :
    miller_rabin 25 9 (fun _ _ => 7) true = true ∧
    miller_rabin 25 9 (fun _ j => if j < 8 then 7 else 2) false = false := by
  constructor <;> rfl

/-- C2: the claim that the per-worker round counts sum to exactly k is
false at k = 100 (precisely the round count is_prime_helper passes): the
8 workers receive 100 / 8 = 12 rounds each, summing to 96, so 4 rounds
are silently dropped. -/
theorem conc_round_counts_sum_at_100 :
    (concRoundCounts 100).sum = 96 ∧ (concRoundCounts 100).sum ≠ 100 := by
  constructor <;> decide

/-- C4: the claim that mod_exp returns (b ^ e) mod m for every modulus
m > 0, lying in [0, m), fails at exponent 0 with modulus 1: the loop
never runs and the unreduced accumulator 1 is returned, while
(2 ^ 0) mod 1 = 0. -/
theorem mod_exp_zero_exponent_modulus_one :
    mod_exp 2 0 1 = 1 ∧ (2 ^ 0) % 1 = 0 := by
  constructor <;> rfl

/-- C7: the claim that gcdext returns g = gcd(a, b) with a Bezout identity
is false: the implementation returns the zero triple for every input; at
a = b = 2 the returned g = 0 differs from gcd 2 2 = 2 and the identity
2 * 0 + 2 * 0 = 0 does not equal g = gcd = 2. -/
theorem gcdext_stub_contradicts_contract :
    gcdext 2 2 = (0, 0, 0) ∧ Nat.gcd 2 2 = 2 ∧ 2 * 0 + 2 * 0 ≠ Nat.gcd 2 2 := by
  refine ⟨rfl, rfl, by decide⟩

/-- C8 counterexample: the claim that a zero round count is rejected with
an InvalidArgument failure before any computation is false: both the
sequential and the threaded testers simply run zero rounds and report the
verdict true. -/
theorem miller_rabin_zero_rounds_returns_true :
    miller_rabin 5 0 (fun _ _ => 2) false = true ∧
    miller_rabin 5 0 (fun _ _ => 2) true = true := by
  constructor <;> rfl

/-- C8 amended: no argument validation exists anywhere.  A zero round
count makes both variants of the tester vacuously return true for every
candidate and every random stream, and a zero exponent makes mod_exp
return the unreduced accumulator 1 for every base and every modulus
(including modulus 0, where the source would otherwise divide by zero);
negative exponents and negative moduli are unrepresentable in the
unsigned integer type. -/
theorem no_invalid_argument_validation :
    (∀ n (W : Fin 8 → ℕ → ℕ) (th : Bool), miller_rabin n 0 W th = true) ∧
    (∀ b m, mod_exp b 0 m = 1) := by
  constructor
  · intro n W th
    cases th <;> simp [miller_rabin, miller_rabin_thread, mrRoundsList]
  · intro b m
    rfl

/-- C5: the special-case guards of is_prime_helper accept 2 and 3, reject
every n below 2 and every even n above 2, and whenever the guards decide
a candidate the verdict is returned directly, with the Miller-Rabin
witness loop never consulted (the random stream and thread flag are
irrelevant). -/
theorem is_prime_special_cases :
    isPrimeSpecial 2 = some true ∧ isPrimeSpecial 3 = some true ∧
    (∀ n, n < 2 → isPrimeSpecial n = some false) ∧
    (∀ n, 2 < n → n % 2 = 0 → isPrimeSpecial n = some false) ∧
    (∀ n b, isPrimeSpecial n = some b →
      ∀ (W : Fin 8 → ℕ → ℕ) (th : Bool), is_prime_helper n W th = b) := by
  refine ⟨rfl, rfl, ?_, ?_, ?_⟩
  · intro n hn
    unfold isPrimeSpecial
    rw [if_neg (by omega), if_pos (Or.inl hn)]
  · intro n hn he
    unfold isPrimeSpecial
    rw [if_neg (by omega), if_pos (Or.inr he)]
  · intro n b h W th
    simp only [is_prime_helper, h]

/-- Witness for C5: the special-case verdicts flow through
is_prime_helper unchanged at n = 2 and n = 10. -/
theorem is_prime_special_cases_witness :
    is_prime_helper 2 (fun _ _ => 0) false = true ∧
    is_prime_helper 10 (fun _ _ => 0) true = false :=
  ⟨is_prime_special_cases.2.2.2.2 2 true rfl (fun _ _ => 0) false,
   is_prime_special_cases.2.2.2.2 10 false rfl (fun _ _ => 0) true⟩

/-- Invariants of the decomposition loop: starting from d different from 0
with counter s0 and enough fuel, the final d is odd, the counter only
grows, multiplying the final d back by 2 to the added count restores the
initial d, and the counter strictly grows when the initial d is even. -/
lemma decomposeGo_spec :
    ∀ fuel d s0, d ≠ 0 → d ≤ fuel →
      (decomposeGo fuel d s0).1 % 2 = 1 ∧
      s0 ≤ (decomposeGo fuel d s0).2 ∧
      (decomposeGo fuel d s0).1 * 2 ^ ((decomposeGo fuel d s0).2 - s0) = d ∧
      (d % 2 = 0 → s0 < (decomposeGo fuel d s0).2) := by
  intro fuel
  induction fuel with
  | zero => intro d s0 hd hle; omega
  | succ f ih =>
    intro d s0 hd hle
    by_cases h : d % 2 = 0
    · rw [decomposeGo, if_pos ⟨hd, h⟩]
      have hd2 : d / 2 ≠ 0 := by omega
      have hle2 : d / 2 ≤ f := by omega
      obtain ⟨h1, h2, h3, _⟩ := ih (d / 2) (s0 + 1) hd2 hle2
      refine ⟨h1, by omega, ?_, by omega⟩
      have he : (decomposeGo f (d / 2) (s0 + 1)).2 - s0 =
          ((decomposeGo f (d / 2) (s0 + 1)).2 - (s0 + 1)) + 1 := by omega
      rw [he, pow_succ, ← mul_assoc, h3]
      omega
    · rw [decomposeGo, if_neg (by tauto)]
      exact ⟨by omega, le_refl s0, by simp, by omega⟩

/-- C6: for every odd candidate n above 3, the pair (d, s) that
fn miller_rabin computes from n - 1 before any round satisfies
n - 1 = d * 2 ^ s with d odd and s at least 1, and s is the number of
trailing zero bits of n - 1, expressed as 2 ^ s dividing n - 1 while
2 ^ (s + 1) does not.  In the embedding the rounds receive (n, d, s) as
read-only arguments, matching the Arc-shared immutable values of the
source. -/
theorem decompose_invariant (n : ℕ) (hn : 3 < n) (hodd : n % 2 = 1) :
    ∀ d s, decompose (n - 1) = (d, s) →
      d % 2 = 1 ∧ n - 1 = d * 2 ^ s ∧ 1 ≤ s ∧
      2 ^ s ∣ (n - 1) ∧ ¬ 2 ^ (s + 1) ∣ (n - 1) := by
  intro d s hds
  have h0 : n - 1 ≠ 0 := by omega
  obtain ⟨h1, h2, h3, h4⟩ := decomposeGo_spec (n - 1) (n - 1) 0 h0 (le_refl _)
  unfold decompose at hds
  rw [hds] at h1 h2 h3 h4
  simp only [Nat.sub_zero] at h3
  have heven : (n - 1) % 2 = 0 := by omega
  have hs : 0 < s := h4 heven
  refine ⟨h1, h3.symm, hs, ⟨d, by rw [← h3]; ring⟩, ?_⟩
  rintro ⟨c, hc⟩
  have hkey : 2 ^ s * d = 2 ^ s * (2 * c) := by
    rw [mul_comm (2 ^ s) d, h3, hc]
    ring
  have hdc : d = 2 * c :=
    Nat.eq_of_mul_eq_mul_left (Nat.pos_pow_of_pos s (by omega)) hkey
  omega

/-- Witness for C6 at n = 13: decompose 12 = (3, 2), and indeed 3 is odd,
12 = 3 * 4, and 4 divides 12 while 8 does not. -/
theorem decompose_invariant_witness :
    3 % 2 = 1 ∧ 13 - 1 = 3 * 2 ^ 2 ∧ 1 ≤ 2 ∧
    2 ^ 2 ∣ (13 - 1) ∧ ¬ 2 ^ (2 + 1) ∣ (13 - 1) :=
  decompose_invariant 13 (by decide) (by decide) 3 2 (by decide)

/-- Once x reaches 1 the spec squaring loop can never pass: squaring 1
modulo n stays 1, which differs from n - 1 when n is above 3. -/
lemma specSquare_one (n : ℕ) (hn : 3 < n) : ∀ f, specSquare n 1 f = false := by
  intro f
  induction f with
  | zero => rfl
  | succ g ih =>
    rw [specSquare]
    have h1 : 1 * 1 % n = 1 := by
      rw [one_mul]; exact Nat.mod_eq_of_lt (by omega)
    rw [h1, if_neg (by omega), ih]

/-- The inner loop of the source and the squaring loop worded by the spec
agree: called with fuel f + 1 (so i ranges over f + 1 iterations with the
early exit at i = s - 1), the source loop returns the same verdict as the
spec loop of f squarings.  The source differs syntactically in two ways
that never change the verdict: it returns false as soon as x = 1 (but 1
squares to 1 forever and never reaches n - 1), and it performs one final
squaring whose result it ignores. -/
lemma squareLoop_eq_specSquare (n : ℕ) (hn : 3 < n) :
    ∀ f x, squareLoop n x (f + 1) = specSquare n x f := by
  intro f
  induction f with
  | zero =>
    intro x
    rw [squareLoop, if_pos (Or.inr rfl)]
    rfl
  | succ g ih =>
    intro x
    have hsq : mod_exp x 2 n = x * x % n := by
      rw [mod_exp_correct x 2 n (by omega) (by omega), pow_two]
    rw [squareLoop, specSquare, hsq]
    by_cases h1 : x * x % n = 1
    · rw [if_pos (Or.inl h1), h1, if_neg (by omega), specSquare_one n hn]
    · by_cases h2 : x * x % n = n - 1
      · rw [if_neg (by omega), if_pos h2, if_pos h2]
      · rw [if_neg (by omega), if_neg h2, if_neg h2, ih]

/-- C3: for every odd n above 3 with n - 1 = d * 2 ^ s and d odd, one
round of fn miller_rabin_thread at witness a returns exactly the verdict
of the round as worded by the spec: x = a ^ d mod n passes when it is 1
or n - 1, otherwise up to s - 1 squarings pass as soon as n - 1 appears
and the round reports composite when they are exhausted. -/
theorem mr_round_matches_spec (n d s a : ℕ) (hn : 3 < n) (hodd : n % 2 = 1)
    (hd : d % 2 = 1) (hds : n - 1 = d * 2 ^ s) :
    mrRound n d s a = specRound n d s a := by
  have hs : 1 ≤ s := by
    rcases s with _ | t
    · rw [pow_zero, mul_one] at hds; omega
    · omega
  have hx : mod_exp a d n = a ^ d % n := mod_exp_correct a d n (by omega) (by omega)
  unfold mrRound specRound
  rw [hx]
  by_cases h : a ^ d % n = 1 ∨ a ^ d % n = n - 1
  · rw [if_pos h, if_pos h]
  · rw [if_neg h, if_neg h]
    have hrw := squareLoop_eq_specSquare n hn (s - 1) (a ^ d % n)
    rw [show s - 1 + 1 = s by omega] at hrw
    exact hrw

/-- Witness for C3 at n = 25, d = 3, s = 3 (24 = 3 * 8) and witness
a = 7: the source round and the spec round agree. -/
theorem mr_round_matches_spec_witness : mrRound 25 3 3 7 = specRound 25 3 3 7 :=
  mr_round_matches_spec 25 3 3 7 (by decide) (by decide) (by decide) (by decide)

/-- Invariants of the search loop: a returned candidate p is at least the
start, keeps the parity of the start, satisfies the primality predicate,
and every candidate strictly between the start and p (stepping by 2)
failed the predicate. -/
lemma nextPrimeGo_spec :
    ∀ fuel (isP : ℕ → Bool) c p, nextPrimeGo isP fuel c = some p →
      c ≤ p ∧ isP p = true ∧ p % 2 = c % 2 ∧
      ∃ j, p = c + 2 * j ∧ ∀ i < j, isP (c + 2 * i) = false := by
  intro fuel
  induction fuel with
  | zero => intro isP c p h; exact absurd h (by simp [nextPrimeGo])
  | succ f ih =>
    intro isP c p h
    rw [nextPrimeGo] at h
    by_cases hc : isP c = true
    · rw [if_pos hc] at h
      have hcp : c = p := by simpa using h
      subst hcp
      exact ⟨le_refl c, hc, rfl, 0, by omega, by omega⟩
    · rw [if_neg hc] at h
      have hcf : isP c = false := by
        cases hv : isP c
        · rfl
        · exact absurd hv hc
      obtain ⟨h1, h2, h3, j, hj1, hj2⟩ := ih isP (c + 2) p h
      refine ⟨by omega, h2, by omega, j + 1, by omega, ?_⟩
      intro i hi
      rcases Nat.eq_zero_or_pos i with hz | hpos
      · subst hz
        simpa using hcf
      · have hlt : i - 1 < j := by omega
        have hstep := hj2 (i - 1) hlt
        rw [show c + 2 * i = c + 2 + 2 * (i - 1) by omega]
        exact hstep

/-- C10: whatever fuel, primality predicate (fn is_prime_helper under any
random stream and thread flag) and start n, a value returned by
fn next_prime_helper is strictly greater than n and odd, hence never the
prime 2; the first candidate tested is n + 1 for even n and n + 2 for
odd n, later candidates advance by 2, and every earlier candidate failed
the test.  Moreover, with the real is_prime_helper the searches from 0
and from 1 both return 3, because the candidate 1 is rejected and the
candidate 3 accepted by the special-case guards alone. -/
theorem next_prime_props :
    (∀ (isP : ℕ → Bool) fuel n p, next_prime_helper isP fuel n = some p →
      n < p ∧ p % 2 = 1 ∧ p ≠ 2 ∧ isP p = true ∧
      ∃ j, p = firstCand n + 2 * j ∧ ∀ i < j, isP (firstCand n + 2 * i) = false) ∧
    (∀ (W : ℕ → Fin 8 → ℕ → ℕ) (th : Bool) fuel,
      next_prime_helper (fun c => is_prime_helper c (W c) th) (fuel + 2) 0 = some 3 ∧
      next_prime_helper (fun c => is_prime_helper c (W c) th) (fuel + 2) 1 = some 3) := by
  constructor
  · intro isP fuel n p h
    have hfc : n < firstCand n ∧ firstCand n % 2 = 1 := by
      unfold firstCand
      split <;> omega
    obtain ⟨h1, h2, h3, j, hj1, hj2⟩ := nextPrimeGo_spec fuel isP (firstCand n) p h
    refine ⟨by omega, by omega, by omega, h2, j, hj1, hj2⟩
  · intro W th fuel
    have h1 : is_prime_helper 1 (W 1) th = false := rfl
    have h3 : is_prime_helper 3 (W 3) th = true := rfl
    constructor
    · show nextPrimeGo _ (fuel + 2) (firstCand 0) = some 3
      rw [show firstCand 0 = 1 from rfl, nextPrimeGo]
      simp only [h1, if_neg Bool.false_ne_true]
      rw [nextPrimeGo]
      simp only [h3]
      norm_num
    · show nextPrimeGo _ (fuel + 2) (firstCand 1) = some 3
      rw [show firstCand 1 = 3 from rfl, nextPrimeGo]
      simp only [h3]
      norm_num

/-- Witness for C10: searching from n = 2 with the predicate accepting
exactly 5 and fuel 3 returns 5, which is above 2, odd, not 2, accepted,
and reached from the first candidate 3 after one failed test. -/
theorem next_prime_props_witness :
    2 < 5 ∧ 5 % 2 = 1 ∧ (5 : ℕ) ≠ 2 ∧ (fun c : ℕ => decide (c = 5)) 5 = true ∧
    ∃ j, 5 = firstCand 2 + 2 * j ∧
      ∀ i < j, (fun c : ℕ => decide (c = 5)) (firstCand 2 + 2 * i) = false :=
  next_prime_props.1 (fun c : ℕ => decide (c = 5)) 3 2 5 (by decide)

end RCrypt
